import Mathlib

/-!
# Verification of the sequence-synchronized frame protocol

Shallow embedding of the protocol core of `modern-ai-tool-protocol`:

* the integer-stream example tools (`src/src/tools/int-stream.ts`),
* the parallel query batch compiler (`src/src/compiler/parallel.ts`),
* the stream execution-state transition table
  (`StreamController.isValidTransition` in `src/docs/STREAMING.md`),
* the frame store / diff resolver (modelled from the design documents; no
  implementation exists in the repository),
* the session sync recovery selection (modelled from the design documents).

TypeScript mutable module state becomes explicit state passing; a thrown
`Error` becomes `Except.error` carrying the thrown message.
-/

namespace FrameProtocol

/-! ## Integer stream tools (`src/src/tools/int-stream.ts`) -/

/-- Frame `type` field: `'full' | 'diff' | 'error'` (`src/src/types.ts`). -/
inductive FrameType
  | full
  | diff
  | error
deriving DecidableEq, Repr

/-- `IntFrame extends Frame` with the stream's `value` (int-stream.ts). -/
structure IntFrame where
  sequence : Int
  type : FrameType
  content : String
  value : Int
deriving DecidableEq, Repr

/-- The module-level mutable state of int-stream.ts:
`let currentValue = 0; let currentSequence = 1;`. -/
structure IntStreamState where
  currentValue : Int
  currentSequence : Int
deriving DecidableEq, Repr

/-- Tool `type` field: `'query' | 'mutation'` (`src/src/compiler/types.ts`). -/
inductive ActionType
  | query
  | mutation
deriving DecidableEq, Repr, BEq

/-- The input record passed to `execute`. `getCurrentValue` reads only
`basedOnSequence`; `incrementValue` reads `amount` as well. -/
structure Input where
  amount : Int
  basedOnSequence : Int
deriving DecidableEq, Repr

/-- `ToolDefinition` (`src/src/compiler/types.ts`): `execute` reads and may
write the module state, or throw. -/
structure ToolDefinition where
  name : String
  description : String
  type : ActionType
  execute : Input → IntStreamState → Except String (IntFrame × IntStreamState)

/-- The frame `getCurrentValue` returns for the current state. -/
def currentFrame (st : IntStreamState) : IntFrame :=
  { sequence := st.currentSequence
    type := FrameType.full
    content := "Value is " ++ toString st.currentValue
    value := st.currentValue }

/-- `getCurrentValue` (int-stream.ts): rejects a stale `basedOnSequence`
with `throw new Error('Invalid sequence number')`, otherwise returns the
current state as a frame and leaves the module state untouched. -/
def getCurrentValue : ToolDefinition where
  name := "get_current_value"
  description := "Get current value of the integer stream"
  type := ActionType.query
  execute := fun inp st =>
    if inp.basedOnSequence ≠ st.currentSequence then
      Except.error "Invalid sequence number"
    else
      Except.ok (currentFrame st, st)

/-- `incrementValue` (int-stream.ts): rejects a stale `basedOnSequence` with
`throw new Error('Invalid sequence number')`; otherwise performs
`currentValue += amount; currentSequence += 1;` and returns the new state
as a frame. -/
def incrementValue : ToolDefinition where
  name := "increment_value"
  description := "Increment the integer stream by a specified amount"
  type := ActionType.mutation
  execute := fun inp st =>
    if inp.basedOnSequence ≠ st.currentSequence then
      Except.error "Invalid sequence number"
    else
      Except.ok
        ({ sequence := st.currentSequence + 1
           type := FrameType.full
           content := "Value is now " ++ toString (st.currentValue + inp.amount)
           value := st.currentValue + inp.amount },
         { currentValue := st.currentValue + inp.amount
           currentSequence := st.currentSequence + 1 })

/-- Run a tool at the top level: a thrown error propagates to the caller and
the module state keeps the value it had when the throw happened (both tools
throw before touching the state, so the entry state is kept). -/
def runTool (t : ToolDefinition) (inp : Input) (st : IntStreamState) :
    Except String IntFrame × IntStreamState :=
  match t.execute inp st with
  | Except.ok (f, st') => (Except.ok f, st')
  | Except.error e => (Except.error e, st)

/-! ## Parallel batch compiler (`src/src/compiler/parallel.ts`) -/

/-- `sequences.every(s => s === sequences[0])` over
`const sequences = inputs.map(i => i.basedOnSequence)`. -/
def sameSequences (inputs : List Input) : Bool :=
  match inputs.map (fun i => i.basedOnSequence) with
  | [] => true
  | s0 :: rest => (s0 :: rest).all (fun s => s == s0)

/-- Execute the batch, pairing `tools[i]` with `inputs[i]`. The example
executors run synchronously to completion (no interior await), so
`Promise.all` effects interleave in list order: state is threaded
left to right, and the first thrown error rejects the whole batch. -/
def runBatch (pairs : List (ToolDefinition × Input)) (st : IntStreamState) :
    Except String (List IntFrame × IntStreamState) :=
  match pairs with
  | [] => Except.ok ([], st)
  | p :: rest =>
    match p.1.execute p.2 st with
    | Except.error e => Except.error e
    | Except.ok (f, st1) =>
      match runBatch rest st1 with
      | Except.error e => Except.error e
      | Except.ok (fs, st2) => Except.ok (f :: fs, st2)

/-- `parallel(tools, inputs)` (parallel.ts): rejects a batch containing a
non-query tool, then a batch whose inputs disagree on `basedOnSequence`,
and only then invokes the executors. -/
def parallel (tools : List ToolDefinition) (inputs : List Input)
    (st : IntStreamState) : Except String (List IntFrame × IntStreamState) :=
  if !(tools.all fun t => t.type == ActionType.query) then
    Except.error "parallel() can only be used with query tools"
  else if !(sameSequences inputs) then
    Except.error "All parallel tools must use the same sequence number"
  else
    runBatch (tools.zip inputs) st

/-! ## Stream execution states (`src/docs/STREAMING.md`) -/

/-- `StreamState` enum of `StreamController`. -/
inductive StreamState
  | initial
  | streaming
  | paused
  | cancelled
  | error
  | complete
deriving DecidableEq, Repr, Fintype

/-- The `validTransitions` table of `StreamController.isValidTransition`. -/
def validTransitions : StreamState → List StreamState
  | StreamState.initial => [StreamState.streaming, StreamState.error]
  | StreamState.streaming =>
      [StreamState.paused, StreamState.complete, StreamState.error,
       StreamState.cancelled]
  | StreamState.paused =>
      [StreamState.streaming, StreamState.cancelled, StreamState.error]
  | StreamState.cancelled => []
  | StreamState.error => []
  | StreamState.complete => []

/-- `StreamController.isValidTransition(from, to)`:
`validTransitions[from].includes(to)`. -/
def isValidTransition (f t : StreamState) : Bool :=
  (validTransitions f).contains t

/-- The transition table exactly as the claim states it (the spec's words,
for comparison with `isValidTransition`): initial→{streaming, error};
streaming→{paused, complete, error, cancelled};
paused→{streaming, cancelled, error}; terminal states have no row. -/
def allowedTransitionSpec (f t : StreamState) : Prop :=
  (f = StreamState.initial ∧
    (t = StreamState.streaming ∨ t = StreamState.error)) ∨
  (f = StreamState.streaming ∧
    (t = StreamState.paused ∨ t = StreamState.complete ∨
     t = StreamState.error ∨ t = StreamState.cancelled)) ∨
  (f = StreamState.paused ∧
    (t = StreamState.streaming ∨ t = StreamState.cancelled ∨
     t = StreamState.error))

instance (f t : StreamState) : Decidable (allowedTransitionSpec f t) := by
  unfold allowedTransitionSpec
  infer_instance

/-! ## Frame store and diff resolver

Modelled from the spec: the Frame Store (`append`, `latestFullFrame`) and
the Diff Resolver are described in §3, §4.1 and §4.2 of the design and in
the `baseFrame` rule of the Frame Protocol document, but no implementation
of them exists in the repository. -/

/-- The `changes` variant of a protocol frame (Frame Protocol document):
`full_page`, `diff` (with `selector` and a `baseFrame` sequence reference),
or `error`. -/
inductive Changes
  | full_page (content : String)
  | diff (selector : String) (content : String) (baseFrame : Int)
  | error (code : String) (message : String)
deriving DecidableEq, Repr

/-- A protocol frame: `sequence`, scope key `url`, and `changes`. -/
structure PFrame where
  sequence : Int
  url : String
  changes : Changes
deriving DecidableEq, Repr

/-- Is this frame a `full_page` snapshot? -/
def isFullPage (f : PFrame) : Bool :=
  match f.changes with
  | Changes.full_page _ => true
  | _ => false

/-- Head sequence of a chronological history (0 when empty; the store's
first assigned sequence is then 1). -/
def headSeq (h : List PFrame) : Int :=
  match h.getLast? with
  | none => 0
  | some f => f.sequence

/-- Modelled from the spec: Frame Store `latestFullFrame(scopeKey)` —
the most recent `full_page` frame for a scope key (scope-key match,
most-recent-first). Recursion that prefers the latest match in a
chronological history. -/
def latestFullFrame : List PFrame → String → Option PFrame
  | [], _ => none
  | f :: rest, url =>
    match latestFullFrame rest url with
    | some g => some g
    | none => if f.url == url && isFullPage f then some f else none

/-- Modelled from the spec: Diff Resolver — if no prior `full_page` frame
exists for the scope key, encode as `full_page`; otherwise encode as `diff`
with `baseFrame` set to the result of `latestFullFrame`. -/
def resolveChanges (h : List PFrame) (url selector content : String) : Changes :=
  match latestFullFrame h url with
  | none => Changes.full_page content
  | some base => Changes.diff selector content base.sequence

/-- Modelled from the spec: Frame Store `append(scopeKey, changes)` —
assigns the next sequence number, constructs the frame and appends it. -/
def appendFrame (h : List PFrame) (url : String) (c : Changes) : List PFrame :=
  h ++ [{ sequence := headSeq h + 1, url := url, changes := c }]

/-- One observation step: the Diff Resolver picks the encoding and the
Frame Store appends the resulting frame. -/
def observe (h : List PFrame) (url selector content : String) : List PFrame :=
  appendFrame h url (resolveChanges h url selector content)

/-- An explicitly requested full refresh (URL/scope change). -/
def observeFull (h : List PFrame) (url content : String) : List PFrame :=
  appendFrame h url (Changes.full_page content)

/-- An executor failure: always encoded as an `error` frame, never a diff. -/
def observeError (h : List PFrame) (url code message : String) : List PFrame :=
  appendFrame h url (Changes.error code message)

/-- Histories the protocol can actually build: the empty history extended by
observation, full-refresh and error steps. -/
inductive ReachableHistory : List PFrame → Prop
  | nil : ReachableHistory []
  | step_observe (h : List PFrame) (url selector content : String) :
      ReachableHistory h → ReachableHistory (observe h url selector content)
  | step_full (h : List PFrame) (url content : String) :
      ReachableHistory h → ReachableHistory (observeFull h url content)
  | step_error (h : List PFrame) (url code message : String) :
      ReachableHistory h → ReachableHistory (observeError h url code message)

/-- The diff base invariant of the claim: every `diff` frame's `baseFrame`
resolves to an existing `full_page` frame with the same scope key and a
strictly lower sequence number, and that frame is the most recent such full
frame (no full frame with the same key sits between base and diff). -/
def DiffBaseInv (h : List PFrame) : Prop :=
  ∀ f ∈ h, ∀ sel c b, f.changes = Changes.diff sel c b →
    (∃ g ∈ h, isFullPage g = true ∧ g.url = f.url ∧ g.sequence = b ∧
      b < f.sequence) ∧
    (∀ g ∈ h, isFullPage g = true → g.url = f.url → g.sequence < f.sequence →
      g.sequence ≤ b)

/-- Auxiliary store invariant: sequences are bounded by the head sequence
and strictly increase along the history, and the diff base invariant holds. -/
def StoreInv (h : List PFrame) : Prop :=
  (∀ f ∈ h, f.sequence ≤ headSeq h) ∧
  h.Pairwise (fun a b => a.sequence < b.sequence) ∧
  DiffBaseInv h

/-! ## Session sync recovery (`src/docs/SYNC.md`)

Modelled from the spec: the Session Sync Manager's recovery selection is
described in the sync design document and §4.5 of the design, but no
implementation of it exists in the repository. -/

/-- A chosen recovery strategy: resend the missed events, send a snapshot,
or hard-reset the session. -/
inductive RecoveryStrategy
  | resend (missed : List Int)
  | snapshot
  | reset
deriving DecidableEq, Repr

/-- Per-session acknowledgment state: highest sent and highest acknowledged
sequence numbers. -/
structure SyncState where
  lastSent : Int
  lastAck : Int
deriving DecidableEq, Repr

/-- `gap() = lastSent - lastAck`. -/
def gap (s : SyncState) : Int := s.lastSent - s.lastAck

/-- Modelled from the spec: the missed events `lastAck+1 .. lastSent`, in
original order, without renumbering. -/
def missedEvents (s : SyncState) : List Int :=
  (List.range (gap s).toNat).map (fun i : Nat => s.lastAck + 1 + (i : Int))

/-- Modelled from the spec: recovery selection — session change first
(hard reset), then `gap() <= smallGapThreshold` (resend missed events),
otherwise snapshot resync. -/
def selectRecovery (s : SyncState) (smallGapThreshold : Int)
    (sessionChanged : Bool) : RecoveryStrategy :=
  if sessionChanged then
    RecoveryStrategy.reset
  else if gap s ≤ smallGapThreshold then
    RecoveryStrategy.resend (missedEvents s)
  else
    RecoveryStrategy.snapshot

/-! ## Claims about the integer stream tools -/

/-- **C1.** A mutation anchored at the current sequence `s` succeeds: the
returned frame has sequence `s + 1` and value `v + a`, and the store's
sequence afterwards is `s + 1` (mutations advance the sequence by exactly
1 per successful commit). -/
theorem increment_advances_sequence (st : IntStreamState) (a : Int) :
    runTool incrementValue { amount := a, basedOnSequence := st.currentSequence } st =
      (Except.ok
        { sequence := st.currentSequence + 1
          type := FrameType.full
          content := "Value is now " ++ toString (st.currentValue + a)
          value := st.currentValue + a },
       { currentValue := st.currentValue + a
         currentSequence := st.currentSequence + 1 }) := by
  simp [runTool, incrementValue]

/-- **C2.** A mutation anchored at a stale sequence fails with the staleness
error (the error the spec names `STALE_SEQUENCE`, thrown by the code as
`'Invalid sequence number'`) and is atomic: the state after the failed call
is exactly the state before it. -/
theorem increment_stale_atomic (st : IntStreamState) (a b : Int)
    (h : b ≠ st.currentSequence) :
    runTool incrementValue { amount := a, basedOnSequence := b } st =
      (Except.error "Invalid sequence number", st) := by
  simp [runTool, incrementValue, h]

/-- Witness for C2 at the spec's scenario: sequence 2, stale anchor 1. -/
theorem increment_stale_atomic_witness :
    runTool incrementValue { amount := 1, basedOnSequence := 1 }
        { currentValue := 5, currentSequence := 2 } =
      (Except.error "Invalid sequence number",
       { currentValue := 5, currentSequence := 2 }) :=
  increment_stale_atomic { currentValue := 5, currentSequence := 2 } 1 1
    (by decide)

/-! ## Claims about parallel query batches -/

lemma zip_replicate_same {α β : Type} (a : α) (b : β) (n : Nat) :
    (List.replicate n a).zip (List.replicate n b) = List.replicate n (a, b) := by
  induction n with
  | zero => rfl
  | succ k ih => simp [List.replicate_succ, ih]

lemma runBatch_replicate_getCurrentValue (st : IntStreamState) (n : Nat) :
    runBatch
        (List.replicate n
          (getCurrentValue, ({ amount := 0, basedOnSequence := st.currentSequence } : Input)))
        st =
      Except.ok (List.replicate n (currentFrame st), st) := by
  induction n with
  | zero => rfl
  | succ k ih =>
    have hex : getCurrentValue.execute
        { amount := 0, basedOnSequence := st.currentSequence } st =
        Except.ok (currentFrame st, st) := by
      simp [getCurrentValue]
    simp [List.replicate_succ, runBatch, hex, ih]

lemma parallel_replicate_getCurrentValue (st : IntStreamState) (n : Nat) :
    parallel (List.replicate n getCurrentValue)
        (List.replicate n { amount := 0, basedOnSequence := st.currentSequence }) st =
      Except.ok (List.replicate n (currentFrame st), st) := by
  have h1 : ((List.replicate n getCurrentValue).all
      fun t => t.type == ActionType.query) = true := by
    rw [List.all_eq_true]
    intro t ht
    rw [List.eq_of_mem_replicate ht]
    rfl
  have h2 : sameSequences
      (List.replicate n { amount := 0, basedOnSequence := st.currentSequence }) = true := by
    cases n with
    | zero => rfl
    | succ k =>
      simp only [sameSequences, List.replicate_succ, List.map_cons,
        List.map_replicate]
      rw [List.all_eq_true]
      intro s hs
      rcases List.mem_cons.mp hs with rfl | hs'
      · simp
      · rw [List.eq_of_mem_replicate hs']
        simp
  rw [parallel, h1, h2]
  simp only [Bool.not_true, Bool.false_eq_true, if_false]
  rw [zip_replicate_same, runBatch_replicate_getCurrentValue]

/-- **C3.** A query anchored at the current sequence `s` — alone, or as any
number `N` of queries in one parallel batch sharing `basedOnSequence = s` —
leaves the state (current sequence and current value) unchanged, and every
query returns a frame whose sequence is `s` and whose value is the current
value. -/
theorem queries_preserve_state (st : IntStreamState) (n : Nat) :
    (∃ f, runTool getCurrentValue { amount := 0, basedOnSequence := st.currentSequence } st =
        (Except.ok f, st) ∧ f.sequence = st.currentSequence ∧ f.value = st.currentValue) ∧
    (∃ fs, parallel (List.replicate n getCurrentValue)
        (List.replicate n { amount := 0, basedOnSequence := st.currentSequence }) st =
          Except.ok (fs, st) ∧ fs.length = n ∧
        ∀ f ∈ fs, f.sequence = st.currentSequence ∧ f.value = st.currentValue) := by
  constructor
  · refine ⟨currentFrame st, ?_, rfl, rfl⟩
    simp [runTool, getCurrentValue]
  · refine ⟨List.replicate n (currentFrame st),
      parallel_replicate_getCurrentValue st n, by simp, ?_⟩
    intro f hf
    rw [List.eq_of_mem_replicate hf]
    exact ⟨rfl, rfl⟩

/-- Witness for C3: two parallel queries against value 3 at sequence 1. -/
theorem queries_preserve_state_witness :
    ∃ f, runTool getCurrentValue { amount := 0, basedOnSequence := 1 }
        { currentValue := 3, currentSequence := 1 } =
      (Except.ok f, { currentValue := 3, currentSequence := 1 }) ∧
      f.sequence = 1 ∧ f.value = 3 :=
  (queries_preserve_state { currentValue := 3, currentSequence := 1 } 2).1

lemma sameSequences_eq (inputs : List Input) (h : sameSequences inputs = true)
    (x y : Input) (hx : x ∈ inputs) (hy : y ∈ inputs) :
    x.basedOnSequence = y.basedOnSequence := by
  cases inputs with
  | nil => cases hx
  | cons i rest =>
    simp only [sameSequences, List.map_cons] at h
    rw [List.all_eq_true] at h
    have hx' := h x.basedOnSequence
      (by rw [← List.map_cons]; exact List.mem_map_of_mem _ hx)
    have hy' := h y.basedOnSequence
      (by rw [← List.map_cons]; exact List.mem_map_of_mem _ hy)
    rw [beq_iff_eq] at hx' hy'
    rw [hx', hy']

/-- **C4.** A parallel batch of query tools whose inputs carry two differing
`basedOnSequence` values is rejected with the inconsistent-batch error (the
error the spec names `INCONSISTENT_BATCH_SEQUENCE`). The theorem holds for
every choice of the tools' `execute` functions, so the rejection happens
before any executor is invoked and no state changes. -/
theorem inconsistent_batch_rejected (tools : List ToolDefinition)
    (inputs : List Input) (st : IntStreamState)
    (hq : ∀ t ∈ tools, t.type = ActionType.query)
    (x y : Input) (hx : x ∈ inputs) (hy : y ∈ inputs)
    (hne : x.basedOnSequence ≠ y.basedOnSequence) :
    parallel tools inputs st =
      Except.error "All parallel tools must use the same sequence number" := by
  have h1 : (tools.all fun t => t.type == ActionType.query) = true := by
    rw [List.all_eq_true]
    intro t ht
    rw [hq t ht]
    rfl
  have h2 : sameSequences inputs = false := by
    cases hss : sameSequences inputs with
    | false => rfl
    | true => exact absurd (sameSequences_eq inputs hss x y hx hy) hne
  simp [parallel, h1, h2]

/-- Witness for C4: two queries whose inputs anchor at sequences 1 and 2. -/
theorem inconsistent_batch_rejected_witness :
    parallel [getCurrentValue, getCurrentValue]
        [{ amount := 0, basedOnSequence := 1 }, { amount := 0, basedOnSequence := 2 }]
        { currentValue := 0, currentSequence := 1 } =
      Except.error "All parallel tools must use the same sequence number" :=
  inconsistent_batch_rejected _ _ _
    (by intro t ht
        simp only [List.mem_cons, List.not_mem_nil, or_false] at ht
        rcases ht with rfl | rfl <;> rfl)
    { amount := 0, basedOnSequence := 1 } { amount := 0, basedOnSequence := 2 }
    (by simp) (by simp) (by decide)

/-- **C5.** A parallel batch containing a mutation tool is rejected with the
mixed-batch error (the error the spec names `MIXED_ACTION_TYPES`). The
theorem holds for every choice of the tools' `execute` functions, so the
rejection happens before any executor is invoked and no state changes. -/
theorem mixed_batch_rejected (tools : List ToolDefinition) (inputs : List Input)
    (st : IntStreamState) (t : ToolDefinition) (ht : t ∈ tools)
    (hm : t.type = ActionType.mutation) :
    parallel tools inputs st =
      Except.error "parallel() can only be used with query tools" := by
  have h1 : (tools.all fun t => t.type == ActionType.query) = false := by
    rw [List.all_eq_false]
    refine ⟨t, ht, ?_⟩
    rw [hm]
    decide
  simp [parallel, h1]

/-- Witness for C5: a batch containing the mutation tool `incrementValue`. -/
theorem mixed_batch_rejected_witness :
    parallel [getCurrentValue, incrementValue]
        [{ amount := 0, basedOnSequence := 1 }, { amount := 1, basedOnSequence := 1 }]
        { currentValue := 0, currentSequence := 1 } =
      Except.error "parallel() can only be used with query tools" :=
  mixed_batch_rejected _ _ _ incrementValue (by simp) rfl

/-! ## Claim about the stream execution-state machine -/

/-- **C6.** `isValidTransition` accepts a transition exactly when the claim's
table lists it: initial→{streaming, error};
streaming→{paused, complete, error, cancelled};
paused→{streaming, cancelled, error}; the terminal states cancelled, error
and complete admit no outgoing transition; every other transition is
rejected. -/
theorem stream_transition_table (f t : StreamState) :
    isValidTransition f t = true ↔ allowedTransitionSpec f t := by
  revert f t
  decide

/-- Witness for C6 at the transition streaming → paused. -/
theorem stream_transition_table_witness :
    isValidTransition StreamState.streaming StreamState.paused = true ↔
      allowedTransitionSpec StreamState.streaming StreamState.paused :=
  stream_transition_table StreamState.streaming StreamState.paused

/-! ## Claim about stale queries -/

/-- **C9.** A query anchored at any `basedOnSequence` other than the current
sequence fails with the `'Invalid sequence number'` error and returns no
state (the state after the failed call is the state before it): stale
queries are rejected outright rather than served an older snapshot, by
exactly the staleness check mutations perform — the same guard and the same
error, as the second conjunct states for `incrementValue`. -/
theorem stale_query_rejected (st : IntStreamState) (b : Int)
    (h : b ≠ st.currentSequence) :
    runTool getCurrentValue { amount := 0, basedOnSequence := b } st =
      (Except.error "Invalid sequence number", st) ∧
    ∀ a, runTool incrementValue { amount := a, basedOnSequence := b } st =
      (Except.error "Invalid sequence number", st) := by
  constructor
  · simp [runTool, getCurrentValue, h]
  · intro a
    simp [runTool, incrementValue, h]

/-- Witness for C9: querying with anchor 3 while the sequence is 2. -/
theorem stale_query_rejected_witness :
    runTool getCurrentValue { amount := 0, basedOnSequence := 3 }
        { currentValue := 4, currentSequence := 2 } =
      (Except.error "Invalid sequence number",
       { currentValue := 4, currentSequence := 2 }) :=
  (stale_query_rejected { currentValue := 4, currentSequence := 2 } 3
    (by decide)).1

/-! ## Claim about positional matching of parallel results -/

lemma zip_getElem?_eq {α β : Type} :
    ∀ (l1 : List α) (l2 : List β) (i : Nat) (p : α × β),
      (l1.zip l2)[i]? = some p → l1[i]? = some p.1 ∧ l2[i]? = some p.2 := by
  intro l1
  induction l1 with
  | nil =>
    intro l2 i p h
    simp at h
  | cons a as ih =>
    intro l2 i p h
    cases l2 with
    | nil => simp at h
    | cons b bs =>
      cases i with
      | zero =>
        simp only [List.zip_cons_cons, List.getElem?_cons_zero,
          Option.some.injEq] at h
        simp [← h]
      | succ j =>
        simp only [List.zip_cons_cons, List.getElem?_cons_succ] at h ⊢
        exact ih bs j p h

lemma runBatch_ok (pairs : List (ToolDefinition × Input)) (st : IntStreamState)
    (hpres : ∀ p ∈ pairs, ∀ s f s', p.1.execute p.2 s = Except.ok (f, s') →
      s' = s) :
    ∀ fs st', runBatch pairs st = Except.ok (fs, st') →
      st' = st ∧ fs.length = pairs.length ∧
      ∀ i, i < pairs.length →
        ∃ p f, pairs[i]? = some p ∧ fs[i]? = some f ∧
          p.1.execute p.2 st = Except.ok (f, st) := by
  induction pairs generalizing st with
  | nil =>
    intro fs st' h
    simp only [runBatch, Except.ok.injEq, Prod.mk.injEq] at h
    obtain ⟨rfl, rfl⟩ := h
    exact ⟨rfl, rfl, fun i hi => absurd hi (by simp)⟩
  | cons p rest ih =>
    intro fs st' h
    simp only [runBatch] at h
    split at h
    · cases h
    · rename_i f st1 hex
      split at h
      · cases h
      · rename_i fs2 st2 hrb
        rw [Except.ok.injEq, Prod.mk.injEq] at h
        obtain ⟨hfs, hst⟩ := h
        have hst1 : st1 = st := hpres p (List.mem_cons_self p rest) st f st1 hex
        rw [hst1] at hex hrb
        obtain ⟨h1, h2, h3⟩ :=
          ih st (fun q hq => hpres q (List.mem_cons_of_mem p hq)) fs2 st2 hrb
        subst hst
        refine ⟨h1, ?_, ?_⟩
        · rw [← hfs]
          simp [h2]
        · intro i hi
          cases i with
          | zero => exact ⟨p, f, by simp, by rw [← hfs]; simp, hex⟩
          | succ j =>
            obtain ⟨q, g, hq, hg, hqex⟩ := h3 j (by simpa using hi)
            exact ⟨q, g, by simpa using hq, by rw [← hfs]; simpa using hg, hqex⟩

lemma getCurrentValue_preserves (inp : Input) (s : IntStreamState)
    (f : IntFrame) (s' : IntStreamState)
    (h : getCurrentValue.execute inp s = Except.ok (f, s')) : s' = s := by
  simp only [getCurrentValue] at h
  split at h
  · cases h
  · rw [Except.ok.injEq, Prod.mk.injEq] at h
    exact h.2.symm

/-- **C10.** For a batch `parallel` accepts and executes, the returned list
has exactly one result per tool, and the `i`-th result is what
`tools[i].execute(inputs[i])` returns — results are positionally matched,
never reordered; and the empty batch passes both validations vacuously and
succeeds with the empty result list. Stated for batches with one input per
tool whose executors leave the state unchanged (the contract of query
tools), so that every executor observes the dispatch-time state. -/
theorem parallel_positional_results (tools : List ToolDefinition)
    (inputs : List Input) (st : IntStreamState)
    (hlen : tools.length = inputs.length)
    (hpres : ∀ t ∈ tools, ∀ inp s f s', t.execute inp s = Except.ok (f, s') →
      s' = s) :
    (parallel [] [] st = Except.ok ([], st)) ∧
    ∀ fs st', parallel tools inputs st = Except.ok (fs, st') →
      st' = st ∧ fs.length = tools.length ∧
      ∀ i, i < tools.length →
        ∃ t inp f, tools[i]? = some t ∧ inputs[i]? = some inp ∧
          fs[i]? = some f ∧ t.execute inp st = Except.ok (f, st) := by
  constructor
  · rfl
  · intro fs st' h
    rw [parallel] at h
    split at h
    · cases h
    · split at h
      · cases h
      · have hzlen : (tools.zip inputs).length = tools.length := by
          simp [List.length_zip, hlen]
        have hpres' : ∀ p ∈ tools.zip inputs, ∀ s f s',
            p.1.execute p.2 s = Except.ok (f, s') → s' = s := by
          intro q hq
          obtain ⟨t, inp⟩ := q
          exact hpres t (List.of_mem_zip hq).1 inp
        obtain ⟨h1, h2, h3⟩ := runBatch_ok (tools.zip inputs) st hpres' fs st' h
        refine ⟨h1, by rw [h2, hzlen], ?_⟩
        intro i hi
        obtain ⟨q, f, hq, hf, hqex⟩ := h3 i (by rw [hzlen]; exact hi)
        obtain ⟨ht, hinp⟩ := zip_getElem?_eq tools inputs i q hq
        exact ⟨q.1, q.2, f, ht, hinp, hf, hqex⟩

/-- Witness for C10: a two-query batch anchored at the current sequence. -/
theorem parallel_positional_results_witness :
    parallel [] [] { currentValue := 7, currentSequence := 1 } =
      Except.ok ([], { currentValue := 7, currentSequence := 1 }) :=
  (parallel_positional_results [getCurrentValue, getCurrentValue]
    [{ amount := 0, basedOnSequence := 1 }, { amount := 0, basedOnSequence := 1 }]
    { currentValue := 7, currentSequence := 1 } rfl
    (by intro t ht inp s f s' hex
        simp only [List.mem_cons, List.not_mem_nil, or_false] at ht
        rcases ht with rfl | rfl <;>
          exact getCurrentValue_preserves inp s f s' hex)).1

/-! ## Claim about diff base frames -/

lemma latestFullFrame_mem :
    ∀ (h : List PFrame) (url : String) (g : PFrame),
      latestFullFrame h url = some g →
      g ∈ h ∧ g.url = url ∧ isFullPage g = true := by
  intro h
  induction h with
  | nil =>
    intro url g hg
    cases hg
  | cons f rest ih =>
    intro url g hg
    simp only [latestFullFrame] at hg
    split at hg
    · rename_i g0 heq
      rw [Option.some.injEq] at hg
      subst hg
      obtain ⟨hm, hu, hfp⟩ := ih url g0 heq
      exact ⟨List.mem_cons_of_mem f hm, hu, hfp⟩
    · rename_i heq
      split at hg
      · rename_i hcond
        rw [Option.some.injEq] at hg
        subst hg
        rw [Bool.and_eq_true, beq_iff_eq] at hcond
        exact ⟨List.mem_cons_self f rest, hcond.1, hcond.2⟩
      · cases hg

lemma latestFullFrame_none :
    ∀ (h : List PFrame) (url : String),
      latestFullFrame h url = none →
      ∀ g ∈ h, ¬(g.url = url ∧ isFullPage g = true) := by
  intro h
  induction h with
  | nil =>
    intro url _ g hg
    cases hg
  | cons f rest ih =>
    intro url hn g hg
    simp only [latestFullFrame] at hn
    split at hn
    · cases hn
    · rename_i heq
      split at hn
      · cases hn
      · rename_i hcond
        rcases List.mem_cons.mp hg with rfl | hmem
        · intro hgood
          apply hcond
          rw [Bool.and_eq_true, beq_iff_eq]
          exact hgood
        · exact ih url heq g hmem

lemma latestFullFrame_max :
    ∀ (h : List PFrame) (url : String) (g : PFrame),
      h.Pairwise (fun a b => a.sequence < b.sequence) →
      latestFullFrame h url = some g →
      ∀ g' ∈ h, g'.url = url → isFullPage g' = true →
        g'.sequence ≤ g.sequence := by
  intro h
  induction h with
  | nil =>
    intro url g _ hg
    cases hg
  | cons f rest ih =>
    intro url g hpw hg g' hg' hurl hfull
    rw [List.pairwise_cons] at hpw
    simp only [latestFullFrame] at hg
    split at hg
    · rename_i g0 heq
      rw [Option.some.injEq] at hg
      subst hg
      rcases List.mem_cons.mp hg' with rfl | hmem
      · exact le_of_lt (hpw.1 _ (latestFullFrame_mem rest url _ heq).1)
      · exact ih url g0 hpw.2 heq g' hmem hurl hfull
    · rename_i heq
      split at hg
      · rename_i hcond
        rw [Option.some.injEq] at hg
        subst hg
        rcases List.mem_cons.mp hg' with rfl | hmem
        · exact le_refl _
        · exact absurd ⟨hurl, hfull⟩ (latestFullFrame_none rest url heq g' hmem)
      · cases hg

lemma headSeq_concat (h : List PFrame) (x : PFrame) :
    headSeq (h ++ [x]) = x.sequence := by
  simp [headSeq, List.getLast?_concat]

lemma storeInv_append (h : List PFrame) (inv : StoreInv h) (url : String)
    (c : Changes)
    (hdiff : ∀ sel cc b, c = Changes.diff sel cc b →
      ∃ g, latestFullFrame h url = some g ∧ g.sequence = b) :
    StoreInv (appendFrame h url c) := by
  obtain ⟨inv1, inv2, inv3⟩ := inv
  have hxseq : ({ sequence := headSeq h + 1, url := url, changes := c } :
      PFrame).sequence = headSeq h + 1 := rfl
  rw [StoreInv, appendFrame, headSeq_concat, hxseq]
  refine ⟨?_, ?_, ?_⟩
  · intro f hf
    rcases List.mem_append.mp hf with hmem | hx
    · exact le_trans (inv1 f hmem) (by omega)
    · rw [List.mem_singleton] at hx
      rw [hx]
  · rw [List.pairwise_append]
    refine ⟨inv2, List.pairwise_singleton _ _, ?_⟩
    intro a ha b hb
    rw [List.mem_singleton] at hb
    subst hb
    have := inv1 a ha
    show a.sequence < headSeq h + 1
    omega
  · intro f hf sel cc b hfd
    rcases List.mem_append.mp hf with hmem | hx
    · obtain ⟨⟨g, hg, hgfull, hgurl, hgseq, hglt⟩, hmax⟩ :=
        inv3 f hmem sel cc b hfd
      refine ⟨⟨g, List.mem_append_left _ hg, hgfull, hgurl, hgseq, hglt⟩, ?_⟩
      intro g' hg' hg'full hg'url hg'lt
      rcases List.mem_append.mp hg' with hgm | hgx
      · exact hmax g' hgm hg'full hg'url hg'lt
      · rw [List.mem_singleton] at hgx
        subst hgx
        have hfb := inv1 f hmem
        have hg'lt' : headSeq h + 1 < f.sequence := hg'lt
        omega
    · rw [List.mem_singleton] at hx
      subst hx
      have hfd' : c = Changes.diff sel cc b := hfd
      obtain ⟨g, hlf, hgseq⟩ := hdiff sel cc b hfd'
      obtain ⟨hgmem, hgurl, hgfull⟩ := latestFullFrame_mem h url g hlf
      have hgb := inv1 g hgmem
      refine ⟨⟨g, List.mem_append_left _ hgmem, hgfull, by simpa using hgurl,
        hgseq, show b < headSeq h + 1 by omega⟩, ?_⟩
      intro g' hg' hg'full hg'url hg'lt
      rcases List.mem_append.mp hg' with hgm | hgx
      · have := latestFullFrame_max h url g inv2 hlf g' hgm
          (by simpa using hg'url) hg'full
        omega
      · rw [List.mem_singleton] at hgx
        subst hgx
        have hg'full' : isFullPage
            { sequence := headSeq h + 1, url := url, changes := c } = true :=
          hg'full
        rw [isFullPage] at hg'full'
        simp only [hfd'] at hg'full'
        cases hg'full'

lemma storeInv_reachable (h : List PFrame) (hr : ReachableHistory h) :
    StoreInv h := by
  induction hr with
  | nil =>
    refine ⟨by simp, List.Pairwise.nil, ?_⟩
    intro f hf
    cases hf
  | step_observe h url sel content hr ih =>
    apply storeInv_append h ih url
    intro sel' cc b hfd
    rw [resolveChanges] at hfd
    cases hlf : latestFullFrame h url with
    | none =>
      rw [hlf] at hfd
      cases hfd
    | some base =>
      rw [hlf] at hfd
      rw [Changes.diff.injEq] at hfd
      exact ⟨base, rfl, hfd.2.2⟩
  | step_full h url content hr ih =>
    apply storeInv_append h ih url
    intro sel' cc b hfd
    cases hfd
  | step_error h url code message hr ih =>
    apply storeInv_append h ih url
    intro sel' cc b hfd
    cases hfd

/-- **C7.** In every history the protocol can build, each `diff` frame's
`baseFrame` resolves to an existing `full_page` frame with the same scope
key (`url`) and a strictly lower sequence number, and that frame is the
most recent such full frame; and an observation for a scope key with no
prior `full_page` frame is emitted as a `full_page` frame, never a diff. -/
theorem diff_base_frame_invariant (h : List PFrame) (hr : ReachableHistory h) :
    DiffBaseInv h ∧
    ∀ url sel content, (∀ g ∈ h, ¬(g.url = url ∧ isFullPage g = true)) →
      resolveChanges h url sel content = Changes.full_page content := by
  constructor
  · exact (storeInv_reachable h hr).2.2
  · intro url sel content hno
    cases hlf : latestFullFrame h url with
    | none => simp [resolveChanges, hlf]
    | some g =>
      obtain ⟨hm, hu, hfp⟩ := latestFullFrame_mem h url g hlf
      exact absurd ⟨hu, hfp⟩ (hno g hm)

/-- Witness for C7: two observations of the same page; the second is a diff
whose base must be the first (full) frame. -/
theorem diff_base_frame_invariant_witness :
    DiffBaseInv (observe (observe [] "/a" "s0" "c0") "/a" "s1" "c1") :=
  (diff_base_frame_invariant _
    (ReachableHistory.step_observe _ "/a" "s1" "c1"
      (ReachableHistory.step_observe _ "/a" "s0" "c0"
        ReachableHistory.nil))).1

/-! ## Claim about sync recovery selection -/

/-- **C8.** With no session change, recovery is `resend` of exactly the
missed sequence numbers `lastAck+1 .. lastSent` in original increasing
order when `gap ≤ smallGapThreshold`, and `snapshot` when
`gap > smallGapThreshold`; with `lastSent = 50` and threshold 20,
`lastAck = 10` selects `snapshot` and `lastAck = 45` selects `resend`
of `[46..50]`. -/
theorem recovery_selection (ls la thr : Int) :
    (gap { lastSent := ls, lastAck := la } ≤ thr →
      selectRecovery { lastSent := ls, lastAck := la } thr false =
        RecoveryStrategy.resend (missedEvents { lastSent := ls, lastAck := la })) ∧
    (thr < gap { lastSent := ls, lastAck := la } →
      selectRecovery { lastSent := ls, lastAck := la } thr false =
        RecoveryStrategy.snapshot) ∧
    (∀ x : Int, x ∈ missedEvents { lastSent := ls, lastAck := la } ↔
      la + 1 ≤ x ∧ x ≤ ls) ∧
    (missedEvents { lastSent := ls, lastAck := la }).Pairwise (· < ·) ∧
    selectRecovery { lastSent := 50, lastAck := 10 } 20 false =
      RecoveryStrategy.snapshot ∧
    selectRecovery { lastSent := 50, lastAck := 45 } 20 false =
      RecoveryStrategy.resend [46, 47, 48, 49, 50] := by
  refine ⟨?_, ?_, ?_, ?_, by decide, by decide⟩
  · intro hle
    simp [selectRecovery, hle]
  · intro hgt
    simp [selectRecovery, not_le.mpr hgt]
  · intro x
    simp only [missedEvents, gap, List.mem_map, List.mem_range]
    constructor
    · rintro ⟨i, hi, rfl⟩
      constructor <;> omega
    · rintro ⟨h1, h2⟩
      exact ⟨(x - la - 1).toNat, by omega, by omega⟩
  · rw [missedEvents, List.pairwise_map]
    exact (List.pairwise_lt_range _).imp (fun hab => by omega)

/-- Witness for C8 at the spec's second instance: `lastAck = 45`. -/
theorem recovery_selection_witness :
    selectRecovery { lastSent := 50, lastAck := 45 } 20 false =
      RecoveryStrategy.resend (missedEvents { lastSent := 50, lastAck := 45 }) :=
  (recovery_selection 50 45 20).1 (by decide)

end FrameProtocol
